import Mathlib

/-!
Verification of the Mandelbrot renderer (`src/main.rs`) against its
natural-language specification.

The source program computes everything in `f64`.  This development models the
floating-point arithmetic exactly, over the rationals `ℚ`: every arithmetic
expression of the source is translated literally, and the only rewriting is
that the escape test `sqrt (x*x + y*y) > 2.0` of the source is expressed
square-free as `x*x + y*y > 2*2`, which is equivalent over an ordered field
because both sides of the original comparison are nonnegative.  Machine
integers (`i32`) are modelled as `ℤ` and the loop counters as `ℕ`; the `u8`
color channels are `ℕ` values reduced `% 256` exactly where the source
performs an `as u8` cast.
-/

/-- Source constant `FRACTAL_ITERATIONS: i32 = 255`. -/
def FRACTAL_ITERATIONS : Nat := 255

/-- Source constant `FRACTAL_ESCAPE: f64 = 2.0`. -/
def FRACTAL_ESCAPE : ℚ := 2

/-- Source constant `WORKER_THREADS: u32 = 10`. -/
def WORKER_THREADS : Nat := 10

/-- Source constant `WINDOW_HEIGHT: i32 = 800`. -/
def WINDOW_HEIGHT : ℤ := 800

/-- Source constant `WINDOW_WIDTH: i32 = 800`. -/
def WINDOW_WIDTH : ℤ := 800

/-- Source constant `INIT_VIRTUAL_GRID_XMIN: f64 = -2.0`. -/
def INIT_VIRTUAL_GRID_XMIN : ℚ := -2

/-- Source constant `INIT_VIRTUAL_GRID_XMAX: f64 = 2.0`. -/
def INIT_VIRTUAL_GRID_XMAX : ℚ := 2

/-- Source constant `INIT_VIRTUAL_GRID_YMIN: f64 = -2.0`. -/
def INIT_VIRTUAL_GRID_YMIN : ℚ := -2

/-- Source constant `INIT_VIRTUAL_GRID_YMAX: f64 = 2.0`. -/
def INIT_VIRTUAL_GRID_YMAX : ℚ := 2

/-- Source `struct VirtualPoint(f64, f64, (u8, u8, u8))`: a sample of the
complex plane together with its color. -/
structure VirtualPoint where
  x : ℚ
  y : ℚ
  color : Nat × Nat × Nat
deriving DecidableEq, Repr

/-- Source `struct PhysicalPoint(i32, i32, (u8, u8, u8))`: a pixel position
plus a color. -/
structure PhysicalPoint where
  x : ℤ
  y : ℤ
  color : Nat × Nat × Nat
deriving DecidableEq, Repr

/-- Source `struct Mandelbrot`: the viewport state (virtual bounds and
physical resolution). -/
structure Mandelbrot where
  xmin : ℚ
  xmax : ℚ
  ymin : ℚ
  ymax : ℚ
  width : ℤ
  height : ℤ
deriving DecidableEq, Repr

/-- Source `Mandelbrot::new()`: the initial viewport created at startup. -/
def Mandelbrot.new : Mandelbrot :=
  { xmin := INIT_VIRTUAL_GRID_XMIN
    xmax := INIT_VIRTUAL_GRID_XMAX
    ymin := INIT_VIRTUAL_GRID_YMIN
    ymax := INIT_VIRTUAL_GRID_YMAX
    width := WINDOW_WIDTH
    height := WINDOW_HEIGHT }

/-- One step of the loop body of `calc_mandelbrot_point` (source lines 50-51):
from the current iterate `z` it computes the next iterate
`(z.1*z.1 - z.2*z.2 + c.1, 2*(z.1*z.2) + c.2)`, i.e. `z^2 + c` in complex
arithmetic. -/
def mandelStep (c z : ℚ × ℚ) : ℚ × ℚ :=
  ((z.1 * z.1) - (z.2 * z.2) + c.1, (2 * (z.1 * z.2)) + c.2)

/-- The iterate sequence of the source recurrence with `z_0 = c` (the source
initialises `prev_x`/`prev_y` to the input coordinates, lines 45-46). -/
def mandelIter (c : ℚ × ℚ) : Nat → ℚ × ℚ
  | 0 => c
  | n + 1 => mandelStep c (mandelIter c n)

/-- Squared modulus `x*x + y*y`; the source compares
`(x*x + y*y).sqrt() > 2.0`, which is equivalent to
`x*x + y*y > 2*2` in exact arithmetic. -/
def sqnorm (z : ℚ × ℚ) : ℚ :=
  z.1 * z.1 + z.2 * z.2

/-- `escaped c n` holds when the source loop's escape test fires at loop index
`n`, i.e. the iterate computed during iteration `n` (which is `z_{n+1}` since
`z_0 = c`) has modulus above `FRACTAL_ESCAPE`. -/
def escaped (c : ℚ × ℚ) (n : Nat) : Bool :=
  decide (FRACTAL_ESCAPE * FRACTAL_ESCAPE < sqnorm (mandelIter c (n + 1)))

/-- Spec-side search for the escape index: the first loop index `n` in
`[start, start + fuel)` whose iterate escapes. -/
def findEscape (c : ℚ × ℚ) : Nat → Nat → Option Nat
  | _, 0 => none
  | start, fuel + 1 =>
    if escaped c start then some start else findEscape c (start + 1) fuel

/-- The spec's escape index under the documented `z_0 = c` recurrence: the
first loop index (iteration count) at which the iterate's modulus exceeds the
threshold, or `254` (the final loop index, `FRACTAL_ITERATIONS - 1`) when the
budget of 255 iterations is exhausted without escaping — which is exactly the
final value of the source's `escape_count` in that case. -/
def escapeIndex (c : ℚ × ℚ) : Nat :=
  (findEscape c 0 FRACTAL_ITERATIONS).getD (FRACTAL_ITERATIONS - 1)

/-- The `for count in 0..FRACTAL_ITERATIONS` loop of `calc_mandelbrot_point`
(source lines 48-58), fuel-indexed by the remaining iteration count: `z` is
`(prev_x, prev_y)`, `count` the loop variable, `ec` the current value of
`escape_count`.  Each iteration assigns `ec := count`, computes the next
iterate, and breaks (returning `count`) when its modulus exceeds the escape
threshold (source test `dist > FRACTAL_ESCAPE`, squared here). -/
def escapeLoopAux (c : ℚ × ℚ) (z : ℚ × ℚ) (count ec : Nat) : Nat → Nat
  | 0 => ec
  | fuel + 1 =>
    if FRACTAL_ESCAPE * FRACTAL_ESCAPE < sqnorm (mandelStep c z) then count
    else escapeLoopAux c (mandelStep c z) (count + 1) count fuel

/-- The value of `escape_count` after the loop of `calc_mandelbrot_point`:
the loop starts at `z_0 = c`, `count = 0`, `escape_count = 0`, and runs for
`FRACTAL_ITERATIONS` iterations. -/
def escCount (c : ℚ × ℚ) : Nat :=
  escapeLoopAux c c 0 0 FRACTAL_ITERATIONS

/-- Source `Mandelbrot::calc_mandelbrot_point` (lines 44-64): runs the escape
loop, then returns `Some` point carrying the original coordinates and the
color `(min(255, escape_count*10) as u8, escape_count as u8, escape_count as
u8)` when `0 < escape_count < FRACTAL_ITERATIONS - 1`, and `None` otherwise.
The `as u8` casts are the `% 256` reductions. -/
def calc_mandelbrot_point (coord : VirtualPoint) : Option VirtualPoint :=
  let ec := escCount (coord.x, coord.y)
  if 0 < ec ∧ ec < FRACTAL_ITERATIONS - 1 then
    some ⟨coord.x, coord.y, (min 255 (ec * 10) % 256, ec % 256, ec % 256)⟩
  else
    none

/-- Source `Mandelbrot::calc_mandelbrot_worker` (lines 66-78): evaluates every
point of its slice through `calc_mandelbrot_point`, keeping the `Some`
results in order. -/
def calc_mandelbrot_worker : List VirtualPoint → List VirtualPoint
  | [] => []
  | p :: rest =>
    match calc_mandelbrot_point p with
    | some q => q :: calc_mandelbrot_worker rest
    | none => calc_mandelbrot_worker rest

/-- The escape loop, started in sync with the iterate sequence, computes the
first escaping loop index found within its fuel, and otherwise the last loop
index it visited. -/
lemma escapeLoopAux_spec (c : ℚ × ℚ) :
    ∀ (fuel start ec : Nat), 0 < fuel →
      escapeLoopAux c (mandelIter c start) start ec fuel
        = (findEscape c start fuel).getD (start + fuel - 1) := by
  intro fuel
  induction fuel with
  | zero => intro start ec h; omega
  | succ f ih =>
    intro start ec _
    by_cases hesc : FRACTAL_ESCAPE * FRACTAL_ESCAPE < sqnorm (mandelIter c (start + 1))
    · have hb : escaped c start = true := by
        simp [escaped, hesc]
      simp only [escapeLoopAux, findEscape, hb, if_true]
      have : mandelStep c (mandelIter c start) = mandelIter c (start + 1) := rfl
      rw [this, if_pos hesc]
      rfl
    · have hb : escaped c start = false := by
        simp [escaped, hesc]
      have hstep : mandelStep c (mandelIter c start) = mandelIter c (start + 1) := rfl
      simp only [escapeLoopAux, findEscape, hb, if_false, Bool.false_eq_true]
      rw [hstep, if_neg hesc]
      rcases f with _ | f'
      · simp [escapeLoopAux, findEscape]
      · rw [ih (start + 1) start (by omega)]
        have : start + 1 + (f' + 1) - 1 = start + (f' + 1 + 1) - 1 := by omega
        rw [this]

/-- The final `escape_count` of the source loop equals the spec's escape
index. -/
lemma escCount_eq_escapeIndex (c : ℚ × ℚ) : escCount c = escapeIndex c := by
  have h := escapeLoopAux_spec c FRACTAL_ITERATIONS 0 0 (by norm_num [FRACTAL_ITERATIONS])
  have h0 : mandelIter c 0 = c := rfl
  rw [h0] at h
  simpa [escCount, escapeIndex, FRACTAL_ITERATIONS] using h

/-- A successful escape search yields the first escaping index in range. -/
lemma findEscape_some (c : ℚ × ℚ) :
    ∀ (fuel start k : Nat), findEscape c start fuel = some k →
      escaped c k = true ∧ start ≤ k ∧ k < start + fuel ∧
        ∀ j, start ≤ j → j < k → escaped c j = false := by
  intro fuel
  induction fuel with
  | zero => intro start k h; simp [findEscape] at h
  | succ f ih =>
    intro start k h
    by_cases hb : escaped c start = true
    · simp only [findEscape, hb, if_true, Option.some.injEq] at h
      subst h
      exact ⟨hb, le_refl _, by omega, fun j h1 h2 => by omega⟩
    · simp only [findEscape, hb, if_false, Bool.false_eq_true] at h
      obtain ⟨h1, h2, h3, h4⟩ := ih (start + 1) k h
      refine ⟨h1, by omega, by omega, fun j hj1 hj2 => ?_⟩
      rcases Nat.eq_or_lt_of_le hj1 with rfl | hlt
      · exact Bool.not_eq_true _ ▸ (by simpa using hb)
      · exact h4 j (by omega) hj2

/-- A failed escape search means no index in range escapes. -/
lemma findEscape_none (c : ℚ × ℚ) :
    ∀ (fuel start : Nat), findEscape c start fuel = none →
      ∀ j, start ≤ j → j < start + fuel → escaped c j = false := by
  intro fuel
  induction fuel with
  | zero => intro start _ j h1 h2; omega
  | succ f ih =>
    intro start h j h1 h2
    by_cases hb : escaped c start = true
    · simp [findEscape, hb] at h
    · simp only [findEscape, hb, if_false, Bool.false_eq_true] at h
      rcases Nat.eq_or_lt_of_le h1 with rfl | hlt
      · simpa using hb
      · exact ih (start + 1) h j (by omega) (by omega)

/-- The escape index never exceeds the final loop index 254. -/
lemma escapeIndex_le (c : ℚ × ℚ) : escapeIndex c ≤ 254 := by
  rcases h : findEscape c 0 FRACTAL_ITERATIONS with _ | k
  · simp only [escapeIndex, h, Option.getD_none]
    norm_num [FRACTAL_ITERATIONS]
  · have := (findEscape_some c FRACTAL_ITERATIONS 0 k h).2.2.1
    simp only [escapeIndex, h, Option.getD_some]
    simp [FRACTAL_ITERATIONS] at this ⊢
    omega

/-- Minimality: any escaping loop index bounds the escape index from above. -/
lemma escapeIndex_min (c : ℚ × ℚ) (j : Nat) (hj : escaped c j = true) :
    escapeIndex c ≤ j := by
  rcases h : findEscape c 0 FRACTAL_ITERATIONS with _ | k
  · have hall := findEscape_none c FRACTAL_ITERATIONS 0 h
    have : 255 ≤ j := by
      by_contra hlt
      have := hall j (by omega) (by simpa [FRACTAL_ITERATIONS] using by omega)
      rw [this] at hj
      exact Bool.false_ne_true hj
    simp only [escapeIndex, h, Option.getD_none]
    have h254 : FRACTAL_ITERATIONS - 1 = 254 := by norm_num [FRACTAL_ITERATIONS]
    omega
  · obtain ⟨h1, _, _, h4⟩ := findEscape_some c FRACTAL_ITERATIONS 0 k h
    simp only [escapeIndex, h, Option.getD_some]
    by_contra hlt
    have := h4 j (by omega) (by omega)
    rw [this] at hj
    exact Bool.false_ne_true hj

/-- Below the cap, the escape index really is an escaping index. -/
lemma escapeIndex_escaped (c : ℚ × ℚ) (h : escapeIndex c < 254) :
    escaped c (escapeIndex c) = true := by
  rcases hf : findEscape c 0 FRACTAL_ITERATIONS with _ | k
  · exfalso
    rw [escapeIndex, hf] at h
    simp [FRACTAL_ITERATIONS] at h
  · have := (findEscape_some c FRACTAL_ITERATIONS 0 k hf).1
    simpa [escapeIndex, hf] using this

/-- Pinning down a concrete escape index from pointwise escape facts. -/
lemma escapeIndex_eq_of (c : ℚ × ℚ) (k : Nat) (hk : k < 255)
    (h1 : ∀ j, j < k → escaped c j = false) (h2 : escaped c k = true) :
    escapeIndex c = k := by
  have hle : escapeIndex c ≤ k := escapeIndex_min c k h2
  rcases Nat.eq_or_lt_of_le hle with h | h
  · exact h
  · exfalso
    have hlt : escapeIndex c < 254 := by
      have := escapeIndex_le c
      omega
    have := h1 (escapeIndex c) h
    rw [escapeIndex_escaped c hlt] at this
    simp at this

/-- The origin is a fixed point of the recurrence. -/
lemma mandelIter_origin (n : Nat) : mandelIter (0, 0) n = (0, 0) := by
  induction n with
  | zero => rfl
  | succ k ih =>
    show mandelStep (0, 0) (mandelIter (0, 0) k) = (0, 0)
    rw [ih]
    simp only [mandelStep, Prod.mk.injEq]
    norm_num

/-- The origin never escapes. -/
lemma escaped_origin (n : Nat) : escaped (0, 0) n = false := by
  show decide (FRACTAL_ESCAPE * FRACTAL_ESCAPE < sqnorm (mandelIter (0, 0) (n + 1))) = false
  rw [decide_eq_false_iff_not, mandelIter_origin]
  norm_num [sqnorm, FRACTAL_ESCAPE]

/-- The origin's escape index is the iteration cap's final loop index. -/
lemma escapeIndex_origin : escapeIndex (0, 0) = 254 := by
  have hle := escapeIndex_le (0, 0)
  rcases Nat.eq_or_lt_of_le hle with h | h
  · exact h
  · exfalso
    have := escapeIndex_escaped (0, 0) h
    rw [escaped_origin] at this
    simp at this

/-- The point (2, 2) escapes at loop index 0. -/
lemma escapeIndex_two_two : escapeIndex (2, 2) = 0 := by
  apply escapeIndex_eq_of (2, 2) 0 (by norm_num) (fun j hj => by omega)
  norm_num [escaped, mandelIter, mandelStep, sqnorm, FRACTAL_ESCAPE]

/-- The point (1, 0) escapes at loop index 1. -/
lemma escapeIndex_one_zero : escapeIndex (1, 0) = 1 := by
  apply escapeIndex_eq_of (1, 0) 1 (by norm_num)
  · intro j hj
    have hj0 : j = 0 := by omega
    subst hj0
    norm_num [escaped, mandelIter, mandelStep, sqnorm, FRACTAL_ESCAPE]
  · norm_num [escaped, mandelIter, mandelStep, sqnorm, FRACTAL_ESCAPE]

/-- The evaluator's result, rephrased through the spec's escape index: `none`
outside `0 < i < 254`, and the original coordinates with color
`(min 255 (i*10), i, i)` inside. -/
lemma calc_point_eq_ite (a b : ℚ) (clr : Nat × Nat × Nat) :
    calc_mandelbrot_point ⟨a, b, clr⟩ =
      if 0 < escapeIndex (a, b) ∧ escapeIndex (a, b) < 254 then
        some ⟨a, b, (min 255 (escapeIndex (a, b) * 10), escapeIndex (a, b),
          escapeIndex (a, b))⟩
      else none := by
  have hec := escCount_eq_escapeIndex (a, b)
  have h254 : FRACTAL_ITERATIONS - 1 = 254 := by norm_num [FRACTAL_ITERATIONS]
  simp only [calc_mandelbrot_point, hec, h254]
  by_cases hc : 0 < escapeIndex (a, b) ∧ escapeIndex (a, b) < 254
  · rw [if_pos hc, if_pos hc]
    have hlt : escapeIndex (a, b) < 256 := by omega
    have h1 : escapeIndex (a, b) % 256 = escapeIndex (a, b) := Nat.mod_eq_of_lt hlt
    have h2 : min 255 (escapeIndex (a, b) * 10) % 256
        = min 255 (escapeIndex (a, b) * 10) := by
      apply Nat.mod_eq_of_lt
      have := Nat.min_le_left 255 (escapeIndex (a, b) * 10)
      omega
    rw [h1, h2]
  · rw [if_neg hc, if_neg hc]

/-- C1.  For every input point `c = (x, y)`, the escape evaluator
`calc_mandelbrot_point` returns `none` exactly when the escape index under
the `z_0 = c` recurrence is `0` or at least `254` (the index never exceeds
`254`, so the `if` guard below covers precisely the claimed cases), and for
`0 < i < 254` it returns a point carrying the original coordinates with
color exactly `(min 255 (i*10), i, i)`. -/
theorem calc_point_classification (a b : ℚ) (clr : Nat × Nat × Nat) :
    calc_mandelbrot_point ⟨a, b, clr⟩ =
      if 0 < escapeIndex (a, b) ∧ escapeIndex (a, b) < 254 then
        some ⟨a, b, (min 255 (escapeIndex (a, b) * 10), escapeIndex (a, b),
          escapeIndex (a, b))⟩
      else none :=
  calc_point_eq_ite a b clr

/-- C2.  The escape evaluator iterates `z_{n+1} = z_n^2 + c` from `z_0 = c`
(not `z_0 = 0`), compares each iterate's modulus against the threshold `2.0`
(expressed squared), stops at the first escaping iterate and records that
loop index, and performs at most 255 iterations (so the recorded index is at
most 254); concretely, `c = (0, 0)` never escapes and is excluded from the
output, and `c = (2, 2)` escapes with index 0 or 1 and is also excluded. -/
theorem escape_recurrence_spec (a b : ℚ) :
    mandelIter (a, b) 0 = (a, b) ∧
    (∀ n, mandelIter (a, b) (n + 1) = mandelStep (a, b) (mandelIter (a, b) n)) ∧
    escCount (a, b) = escapeIndex (a, b) ∧
    escapeIndex (a, b) ≤ 254 ∧
    (∀ j, escaped (a, b) j = true → escapeIndex (a, b) ≤ j) ∧
    (escapeIndex (a, b) < 254 → escaped (a, b) (escapeIndex (a, b)) = true) ∧
    (∀ n, escaped (0, 0) n = false) ∧
    escapeIndex (0, 0) = 254 ∧
    calc_mandelbrot_point ⟨0, 0, (0, 0, 0)⟩ = none ∧
    (escapeIndex (2, 2) = 0 ∨ escapeIndex (2, 2) = 1) ∧
    calc_mandelbrot_point ⟨2, 2, (0, 0, 0)⟩ = none := by
  refine ⟨rfl, fun n => rfl, escCount_eq_escapeIndex (a, b), escapeIndex_le (a, b),
    fun j hj => escapeIndex_min (a, b) j hj, escapeIndex_escaped (a, b),
    escaped_origin, escapeIndex_origin, ?_, Or.inl escapeIndex_two_two, ?_⟩
  · rw [calc_point_eq_ite, escapeIndex_origin]
    norm_num
  · rw [calc_point_eq_ite, escapeIndex_two_two]
    norm_num

/-- Witness for C2 at the concrete point `(1, 0)`: its iterate at loop index 1
escapes, so the theorem's minimality and first-escape conjuncts apply with
their hypotheses discharged concretely. -/
theorem escape_recurrence_spec_witness :
    escapeIndex (1, 0) ≤ 1 ∧ escaped (1, 0) (escapeIndex (1, 0)) = true :=
  ⟨(escape_recurrence_spec 1 0).2.2.2.2.1 1
      (by norm_num [escaped, mandelIter, mandelStep, sqnorm, FRACTAL_ESCAPE]),
    (escape_recurrence_spec 1 0).2.2.2.2.2.1
      (by rw [escapeIndex_one_zero]; omega)⟩

/-- The source's accumulation loop `while v <= hi { push v; v += delta }`
(used for both axes of `draw_mandelbrot_init`, lines 85-93), as the list of
values taken by `v`.  For a nonpositive step the source loop would never
terminate once entered; that case (never reached by the program, whose steps
are positive) is cut off after one element to keep the function total. -/
def gridAxisAux (hi delta : ℚ) (v : ℚ) : List ℚ :=
  if h : v ≤ hi then
    if hd : 0 < delta then
      v :: gridAxisAux hi delta (v + delta)
    else [v]
  else []
termination_by (⌈(hi - v) / delta⌉ + 1).toNat
decreasing_by
  have hne : delta ≠ 0 := ne_of_gt hd
  have h1 : (hi - (v + delta)) / delta = (hi - v) / delta - 1 := by
    field_simp
    ring
  have h2 : (0 : ℤ) ≤ ⌈(hi - v) / delta⌉ :=
    Int.ceil_nonneg (div_nonneg (by linarith) (le_of_lt hd))
  rw [h1, Int.ceil_sub_one]
  omega

/-- Source `Mandelbrot::draw_mandelbrot_init` (lines 80-97): the column-major
grid of sample points, x outer loop and y inner loop, each axis stepping by
`(max - min) / resolution` while the coordinate stays at most `max`. -/
def draw_mandelbrot_init (m : Mandelbrot) : List VirtualPoint :=
  ((gridAxisAux m.xmax ((m.xmax - m.xmin) / (m.width : ℚ)) m.xmin).map (fun x =>
    (gridAxisAux m.ymax ((m.ymax - m.ymin) / (m.height : ℚ)) m.ymin).map (fun y =>
      (⟨x, y, (0, 0, 0)⟩ : VirtualPoint)))).flatten

/-- For a positive step and a reachable bound, the accumulation loop produces
exactly the arithmetic progression up to the last value not exceeding the
bound. -/
lemma gridAxisAux_eq (hi delta : ℚ) (hd : 0 < delta) :
    ∀ (n : Nat) (v : ℚ), v ≤ hi → (⌊(hi - v) / delta⌋).toNat = n →
      gridAxisAux hi delta v
        = (List.range (n + 1)).map (fun k : Nat => v + (k : ℚ) * delta) := by
  intro n
  induction n with
  | zero =>
    intro v hv hn
    have ht0 : (0 : ℚ) ≤ (hi - v) / delta := div_nonneg (by linarith) (le_of_lt hd)
    have hfl : ⌊(hi - v) / delta⌋ = 0 := by
      have := Int.floor_nonneg.mpr ht0
      omega
    have hlt1 : (hi - v) / delta < 1 := by
      have h := Int.lt_floor_add_one ((hi - v) / delta)
      rw [hfl] at h
      norm_num at h
      exact h
    have hstep : hi - v < delta := by
      have := (div_lt_one hd).mp hlt1
      linarith
    rw [gridAxisAux, dif_pos hv, dif_pos hd]
    have hnext : ¬ (v + delta ≤ hi) := by linarith
    rw [gridAxisAux, dif_neg hnext]
    simp [List.range_succ]
  | succ k ih =>
    intro v hv hn
    have ht0 : (0 : ℚ) ≤ (hi - v) / delta := div_nonneg (by linarith) (le_of_lt hd)
    have hfl : ⌊(hi - v) / delta⌋ = (k : ℤ) + 1 := by
      have := Int.floor_nonneg.mpr ht0
      omega
    have hge1 : (1 : ℚ) ≤ (hi - v) / delta := by
      have hle := Int.floor_le ((hi - v) / delta)
      rw [hfl] at hle
      push_cast at hle
      have hk0 : (0 : ℚ) ≤ (k : ℚ) := Nat.cast_nonneg k
      linarith
    have hnext : v + delta ≤ hi := by
      have := (one_le_div hd).mp hge1
      linarith
    have hfl2 : (⌊(hi - (v + delta)) / delta⌋).toNat = k := by
      have hdiv : (hi - (v + delta)) / delta = (hi - v) / delta - 1 := by
        field_simp
        ring
      rw [hdiv, Int.floor_sub_one, hfl]
      omega
    rw [gridAxisAux, dif_pos hv, dif_pos hd, ih (v + delta) hnext hfl2]
    conv_rhs => rw [List.range_succ_eq_map]
    rw [List.map_cons, List.map_map]
    congr 1
    · norm_num
    · apply List.map_congr_left
      intro a _
      simp only [Function.comp_apply]
      push_cast
      ring

/-- Every value produced by the accumulation loop lies between its start and
its bound (for a positive step). -/
lemma gridAxisAux_bounds (hi delta v u : ℚ) (hd : 0 < delta)
    (hu : u ∈ gridAxisAux hi delta v) : v ≤ u ∧ u ≤ hi := by
  by_cases hv : v ≤ hi
  · set t := (hi - v) / delta with ht
    have ht0 : (0 : ℚ) ≤ t := div_nonneg (by linarith) (le_of_lt hd)
    rw [gridAxisAux_eq hi delta hd (⌊t⌋).toNat v hv rfl] at hu
    rw [List.mem_map] at hu
    obtain ⟨k, hk, rfl⟩ := hu
    rw [List.mem_range] at hk
    constructor
    · have : (0 : ℚ) ≤ (k : ℚ) * delta :=
        mul_nonneg (Nat.cast_nonneg k) (le_of_lt hd)
      linarith
    · have hkn : (k : ℚ) ≤ ((⌊t⌋).toNat : ℚ) := Nat.cast_le.mpr (by omega)
      have hnt : (((⌊t⌋).toNat : ℚ)) ≤ t := by
        rw [show (((⌊t⌋).toNat : ℚ)) = ((((⌊t⌋).toNat : ℤ)) : ℚ) by push_cast; ring,
          Int.toNat_of_nonneg (Int.floor_nonneg.mpr ht0)]
        exact Int.floor_le t
      have hmul : (k : ℚ) * delta ≤ t * delta :=
        mul_le_mul_of_nonneg_right (le_trans hkn hnt) (le_of_lt hd)
      have htd : t * delta = hi - v := by
        rw [ht]
        field_simp
      linarith
  · rw [gridAxisAux, dif_neg hv] at hu
    simp at hu

/-- Summing a constant over a list. -/
lemma list_sum_const_nat {α : Type} (l : List α) (c : Nat) :
    (l.map (fun _ => c)).sum = l.length * c := by
  induction l with
  | nil => simp
  | cons a t ih =>
    simp [ih, Nat.succ_mul]
    omega

/-- Point count of the generated grid, for positive steps and reachable
bounds: one more than the floor count per axis, multiplied. -/
lemma draw_mandelbrot_init_length (m : Mandelbrot)
    (hdx : 0 < (m.xmax - m.xmin) / (m.width : ℚ))
    (hdy : 0 < (m.ymax - m.ymin) / (m.height : ℚ))
    (hvx : m.xmin ≤ m.xmax) (hvy : m.ymin ≤ m.ymax) :
    (draw_mandelbrot_init m).length
      = ((⌊(m.xmax - m.xmin) / ((m.xmax - m.xmin) / (m.width : ℚ))⌋).toNat + 1)
        * ((⌊(m.ymax - m.ymin) / ((m.ymax - m.ymin) / (m.height : ℚ))⌋).toNat + 1) := by
  rw [draw_mandelbrot_init,
    gridAxisAux_eq m.xmax ((m.xmax - m.xmin) / (m.width : ℚ)) hdx _ m.xmin hvx rfl,
    gridAxisAux_eq m.ymax ((m.ymax - m.ymin) / (m.height : ℚ)) hdy _ m.ymin hvy rfl,
    List.length_flatten, List.map_map, List.map_map]
  have hconst : ∀ x : Nat,
      ((List.range ((⌊(m.ymax - m.ymin) / ((m.ymax - m.ymin) / (m.height : ℚ))⌋).toNat + 1)).map
        (fun k : Nat => m.ymin + (k : ℚ) * ((m.ymax - m.ymin) / (m.height : ℚ)))).length
      = (⌊(m.ymax - m.ymin) / ((m.ymax - m.ymin) / (m.height : ℚ))⌋).toNat + 1 := by
    intro x
    simp
  simp only [Function.comp_def, List.length_map, List.length_range]
  rw [list_sum_const_nat]
  simp

/-- At the startup viewport the x-axis step is `4 / 800` and the quotient of
the extent by the step is exactly `800`. -/
lemma new_axis_quot :
    ((2 : ℚ) - (-2)) / (((2 : ℚ) - (-2)) / ((800 : ℤ) : ℚ)) = 800 := by
  push_cast
  norm_num

/-- The startup grid contains exactly `801 * 801 = 641601` points: both axis
loops run from `-2` to `2` inclusive in steps of `4 / 800`. -/
lemma init_new_length : (draw_mandelbrot_init Mandelbrot.new).length = 641601 := by
  have hd : (0 : ℚ) < ((2 : ℚ) - (-2)) / ((800 : ℤ) : ℚ) := by
    push_cast
    norm_num
  rw [draw_mandelbrot_init_length Mandelbrot.new hd hd
    (show ((-2 : ℚ)) ≤ 2 by norm_num) (show ((-2 : ℚ)) ≤ 2 by norm_num)]
  show ((⌊((2 : ℚ) - (-2)) / (((2 : ℚ) - (-2)) / ((800 : ℤ) : ℚ))⌋).toNat + 1)
      * ((⌊((2 : ℚ) - (-2)) / (((2 : ℚ) - (-2)) / ((800 : ℤ) : ℚ))⌋).toNat + 1) = 641601
  rw [new_axis_quot, show ((800 : ℚ)) = ((800 : ℤ) : ℚ) by norm_num, Int.floor_intCast]
  rfl

/-- Every startup grid point lies inside the viewport square. -/
lemma mem_init_new (p : VirtualPoint) (hp : p ∈ draw_mandelbrot_init Mandelbrot.new) :
    -2 ≤ p.x ∧ p.x ≤ 2 ∧ -2 ≤ p.y ∧ p.y ≤ 2 := by
  have hd : (0 : ℚ) < ((2 : ℚ) - (-2)) / ((800 : ℤ) : ℚ) := by
    push_cast
    norm_num
  have hp2 : p ∈ ((gridAxisAux (2 : ℚ) (((2 : ℚ) - (-2)) / ((800 : ℤ) : ℚ)) (-2)).map
      (fun x => (gridAxisAux (2 : ℚ) (((2 : ℚ) - (-2)) / ((800 : ℤ) : ℚ)) (-2)).map
        (fun y => (⟨x, y, (0, 0, 0)⟩ : VirtualPoint)))).flatten := hp
  rw [List.mem_flatten] at hp2
  obtain ⟨l, hl, hpl⟩ := hp2
  rw [List.mem_map] at hl
  obtain ⟨x, hx, rfl⟩ := hl
  rw [List.mem_map] at hpl
  obtain ⟨y, hy, rfl⟩ := hpl
  have hbx := gridAxisAux_bounds _ _ _ _ hd hx
  have hby := gridAxisAux_bounds _ _ _ _ hd hy
  exact ⟨hbx.1, hbx.2, hby.1, hby.2⟩

/-- Counterexample to C8 as stated: the startup grid is never "short" of
`width × height` — it holds 641601 points, which exceeds 640000, because both
axis loops include their upper boundary (801 values each under exact
arithmetic). -/
theorem grid_count_not_short_cex :
    ((draw_mandelbrot_init Mandelbrot.new).length ≤ 640000) = False := by
  rw [init_new_length]
  exact eq_false (by norm_num)

/-- C8 (amended).  Over the viewport `[-2, 2] × [-2, 2]` at `800 × 800`
resolution the grid generator produces exactly `641601 = 801 × 801` points —
one extra row and one extra column beyond `width × height`, since both loop
bounds are inclusive under exact arithmetic — and every generated point lies
within `[xmin, xmax] × [ymin, ymax]`. -/
theorem grid_count_and_bounds :
    (draw_mandelbrot_init Mandelbrot.new).length = 641601 ∧
    (draw_mandelbrot_init Mandelbrot.new).all
      (fun p => decide (-2 ≤ p.x ∧ p.x ≤ 2 ∧ -2 ≤ p.y ∧ p.y ≤ 2)) = true := by
  refine ⟨init_new_length, ?_⟩
  rw [List.all_eq_true]
  intro p hp
  rw [decide_eq_true_eq]
  exact mem_init_new p hp

/-- The slices assigned to the `WORKER_THREADS` workers by
`draw_mandelbrot_run` (source lines 102-109): worker `block` copies the
input entries with indices in `[(len/W)*block, (len/W)*(block+1))`, which is
the sublist obtained by dropping the start index and taking the range's
length. -/
def runSlices (points : List VirtualPoint) : List (List VirtualPoint) :=
  (List.range WORKER_THREADS).map (fun block =>
    (points.drop ((points.length / WORKER_THREADS) * block)).take
      ((points.length / WORKER_THREADS) * (block + 1)
        - (points.length / WORKER_THREADS) * block))

/-- Source `Mandelbrot::draw_mandelbrot_run` (lines 99-125): each slice is
handed to a worker thread running `calc_mandelbrot_worker`; the spawned
threads are joined in spawn order and their results concatenated.  Each
worker is a pure function of its owned slice (no shared mutable state), so
the fan-out/fan-in is the concatenation of the per-slice results in
slice-index order. -/
def draw_mandelbrot_run (points : List VirtualPoint) : List VirtualPoint :=
  ((runSlices points).map calc_mandelbrot_worker).flatten

/-- The worker is the `filterMap` of the evaluator. -/
lemma calc_mandelbrot_worker_eq (l : List VirtualPoint) :
    calc_mandelbrot_worker l = l.filterMap calc_mandelbrot_point := by
  induction l with
  | nil => rfl
  | cons p rest ih =>
    rw [calc_mandelbrot_worker, List.filterMap_cons]
    rcases h : calc_mandelbrot_point p with _ | q
    · exact ih
    · rw [ih]

/-- The worker distributes over concatenation. -/
lemma calc_mandelbrot_worker_append (l1 l2 : List VirtualPoint) :
    calc_mandelbrot_worker (l1 ++ l2)
      = calc_mandelbrot_worker l1 ++ calc_mandelbrot_worker l2 := by
  rw [calc_mandelbrot_worker_eq, calc_mandelbrot_worker_eq, calc_mandelbrot_worker_eq,
    List.filterMap_append]

/-- Concatenating `n` consecutive `c`-sized chunks of a list reproduces its
first `c * n` elements. -/
lemma chunks_flatten {α : Type} (c : Nat) :
    ∀ (n : Nat) (l : List α),
      ((List.range n).map (fun b => (l.drop (c * b)).take (c * (b + 1) - c * b))).flatten
        = l.take (c * n) := by
  intro n
  induction n with
  | zero => intro l; simp
  | succ k ih =>
    intro l
    rw [List.range_succ, List.map_append, List.flatten_append, ih]
    simp only [List.map_cons, List.map_nil, List.flatten_cons, List.flatten_nil,
      List.append_nil]
    have hc : c * (k + 1) - c * k = c := by
      rw [Nat.mul_succ]
      omega
    rw [hc, Nat.mul_succ, List.take_add]

/-- The flattened per-slice worker results equal one sequential worker pass
over the concatenated slices. -/
lemma run_eq_worker_take (points : List VirtualPoint) :
    draw_mandelbrot_run points
      = calc_mandelbrot_worker
          (points.take ((points.length / WORKER_THREADS) * WORKER_THREADS)) := by
  rw [draw_mandelbrot_run, runSlices]
  have hmap : ∀ (L : List (List VirtualPoint)),
      (L.map calc_mandelbrot_worker).flatten = calc_mandelbrot_worker L.flatten := by
    intro L
    induction L with
    | nil => rfl
    | cons a t ih =>
      rw [List.map_cons, List.flatten_cons, List.flatten_cons,
        calc_mandelbrot_worker_append, ih]
  rw [List.map_map]
  have := hmap ((List.range WORKER_THREADS).map (fun block =>
    (points.drop ((points.length / WORKER_THREADS) * block)).take
      ((points.length / WORKER_THREADS) * (block + 1)
        - (points.length / WORKER_THREADS) * block)))
  rw [List.map_map] at this
  rw [this, chunks_flatten (points.length / WORKER_THREADS) WORKER_THREADS points]

/-- C3.  The ten-worker partitioned evaluation returns exactly the sequential
evaluation of the input truncated to its first `len - len % 10` points: the
surviving points agree as lists, hence as multisets, and precisely the
trailing `len mod 10` input points are never evaluated. -/
theorem worker_pool_partition_eq (points : List VirtualPoint) :
    draw_mandelbrot_run points
        = calc_mandelbrot_worker
            (points.take (points.length - points.length % 10)) ∧
    (↑(draw_mandelbrot_run points) : Multiset VirtualPoint)
        = ↑(calc_mandelbrot_worker
            (points.take (points.length - points.length % 10))) := by
  have hlen : (points.length / WORKER_THREADS) * WORKER_THREADS
      = points.length - points.length % 10 := by
    rw [WORKER_THREADS]
    omega
  have h := run_eq_worker_take points
  rw [hlen] at h
  exact ⟨h, by rw [h]⟩

/-- Truncation toward zero, the semantics of Rust's `as i32` cast applied to
the (here exact) quotients of `draw_mandelbrot`; saturation at the `i32`
limits is not modelled (all values relevant to the claims are tiny). -/
def ratTrunc (q : ℚ) : ℤ :=
  if 0 ≤ q then ⌊q⌋ else ⌈q⌉

/-- The virtual-to-physical mapping applied to each survivor inside source
`Mandelbrot::draw_mandelbrot` (lines 132-137):
`px = ((x - xmin) / (xmax - xmin) * width) as i32` and likewise for `py`,
with the color passed through unchanged. -/
def toPhysical (m : Mandelbrot) (p : VirtualPoint) : PhysicalPoint :=
  ⟨ratTrunc ((p.x - m.xmin) / (m.xmax - m.xmin) * (m.width : ℚ)),
   ratTrunc ((p.y - m.ymin) / (m.ymax - m.ymin) * (m.height : ℚ)),
   p.color⟩

/-- Source `Mandelbrot::draw_mandelbrot` (lines 127-141): generate the grid,
run the worker pool, then transform every survivor to pixel space. -/
def draw_mandelbrot (m : Mandelbrot) : List PhysicalPoint :=
  (draw_mandelbrot_run (draw_mandelbrot_init m)).map (toPhysical m)

/-- Source `Mandelbrot::zoom` (lines 143-152): unconditionally recenters the
viewport on the virtual image of the clicked pixel, with half-extents scaled
by `r`.  There is no validation of any parameter. -/
def zoom (m : Mandelbrot) (x y : ℤ) (r : ℚ) : Mandelbrot :=
  let virtual_grid_x_size := ((m.xmax - m.xmin) / 2) * r
  let virtual_grid_y_size := ((m.ymax - m.ymin) / 2) * r
  let virtual_x := ((x : ℚ) / (m.width : ℚ)) * (m.xmax - m.xmin) + m.xmin
  let virtual_y := ((y : ℚ) / (m.height : ℚ)) * (m.ymax - m.ymin) + m.ymin
  { m with
    xmin := virtual_x - virtual_grid_x_size
    xmax := virtual_x + virtual_grid_x_size
    ymin := virtual_y - virtual_grid_y_size
    ymax := virtual_y + virtual_grid_y_size }

/-- The inverse physical-to-virtual mapping used by `zoom` for the x
coordinate: `(x / width) * (xmax - xmin) + xmin`. -/
def physToVirtX (m : Mandelbrot) (x : ℤ) : ℚ :=
  ((x : ℚ) / (m.width : ℚ)) * (m.xmax - m.xmin) + m.xmin

/-- The inverse physical-to-virtual mapping used by `zoom` for the y
coordinate. -/
def physToVirtY (m : Mandelbrot) (y : ℤ) : ℚ :=
  ((y : ℚ) / (m.height : ℚ)) * (m.ymax - m.ymin) + m.ymin

/-- The spec's viewport invariant: ordered bounds and positive resolution. -/
def viewportInv (m : Mandelbrot) : Prop :=
  m.xmin < m.xmax ∧ m.ymin < m.ymax ∧ 0 < m.width ∧ 0 < m.height

/-- Floor of an integer halved, cast to the rationals. -/
lemma floor_intCast_div_two (w : ℤ) : ⌊((w : ℚ)) / 2⌋ = w / 2 := by
  rw [show ((2 : ℚ)) = ((2 : ℕ) : ℚ) by norm_num, Rat.floor_intCast_div_natCast]
  norm_num

/-- C4.  The virtual-to-physical transform computes exactly
`trunc ((x - xmin) / (xmax - xmin) * width)` (and likewise for y) with the
color passed through unchanged, and on a non-degenerate viewport it maps the
exact center of the viewport to `(width / 2, height / 2)` (integer halves,
i.e. within rounding). -/
theorem toPhysical_formula_center (m : Mandelbrot) (p : VirtualPoint) :
    ((toPhysical m p).x
        = ratTrunc ((p.x - m.xmin) / (m.xmax - m.xmin) * (m.width : ℚ)) ∧
     (toPhysical m p).y
        = ratTrunc ((p.y - m.ymin) / (m.ymax - m.ymin) * (m.height : ℚ)) ∧
     (toPhysical m p).color = p.color) ∧
    (m.xmin < m.xmax → m.ymin < m.ymax → 0 < m.width → 0 < m.height →
      p.x = (m.xmin + m.xmax) / 2 → p.y = (m.ymin + m.ymax) / 2 →
      (toPhysical m p).x = m.width / 2 ∧ (toPhysical m p).y = m.height / 2) := by
  refine ⟨⟨rfl, rfl, rfl⟩, ?_⟩
  intro hx hy hw hh hpx hpy
  have hnex : m.xmax - m.xmin ≠ 0 := sub_ne_zero.mpr (ne_of_gt hx)
  have hney : m.ymax - m.ymin ≠ 0 := sub_ne_zero.mpr (ne_of_gt hy)
  have hqx : (p.x - m.xmin) / (m.xmax - m.xmin) * (m.width : ℚ) = (m.width : ℚ) / 2 := by
    rw [hpx]
    field_simp
    ring
  have hqy : (p.y - m.ymin) / (m.ymax - m.ymin) * (m.height : ℚ) = (m.height : ℚ) / 2 := by
    rw [hpy]
    field_simp
    ring
  have hwq : (0 : ℚ) ≤ (m.width : ℚ) / 2 := by
    have : (0 : ℚ) < (m.width : ℚ) := by exact_mod_cast hw
    linarith
  have hhq : (0 : ℚ) ≤ (m.height : ℚ) / 2 := by
    have : (0 : ℚ) < (m.height : ℚ) := by exact_mod_cast hh
    linarith
  constructor
  · show ratTrunc ((p.x - m.xmin) / (m.xmax - m.xmin) * (m.width : ℚ)) = m.width / 2
    rw [hqx, ratTrunc, if_pos hwq, floor_intCast_div_two]
  · show ratTrunc ((p.y - m.ymin) / (m.ymax - m.ymin) * (m.height : ℚ)) = m.height / 2
    rw [hqy, ratTrunc, if_pos hhq, floor_intCast_div_two]

/-- Witness for C4: on the startup viewport, the exact center `(0, 0)` is
mapped to pixel `(400, 400) = (width / 2, height / 2)`. -/
theorem toPhysical_formula_center_witness :
    (toPhysical Mandelbrot.new ⟨0, 0, (5, 6, 7)⟩).x = Mandelbrot.new.width / 2 ∧
    (toPhysical Mandelbrot.new ⟨0, 0, (5, 6, 7)⟩).y = Mandelbrot.new.height / 2 :=
  (toPhysical_formula_center Mandelbrot.new ⟨0, 0, (5, 6, 7)⟩).2
    (by norm_num [Mandelbrot.new, INIT_VIRTUAL_GRID_XMIN, INIT_VIRTUAL_GRID_XMAX])
    (by norm_num [Mandelbrot.new, INIT_VIRTUAL_GRID_YMIN, INIT_VIRTUAL_GRID_YMAX])
    (by norm_num [Mandelbrot.new, WINDOW_WIDTH])
    (by norm_num [Mandelbrot.new, WINDOW_HEIGHT])
    (by norm_num [Mandelbrot.new, INIT_VIRTUAL_GRID_XMIN, INIT_VIRTUAL_GRID_XMAX])
    (by norm_num [Mandelbrot.new, INIT_VIRTUAL_GRID_YMIN, INIT_VIRTUAL_GRID_YMAX])

/-- C5.  Every `zoom(x, y, r)` call recenters the viewport on the virtual
coordinate given by the inverse physical-to-virtual mapping of the click,
with the full extents scaled by `r` (i.e. half-extents
`(xmax - xmin)/2 * r`); that mapping really is the inverse of the forward
pixel mapping; and concretely, `zoom(400, 400, 0.8)` on the startup 800x800
viewport keeps the center virtual coordinate and shrinks both extents by the
factor `4/5 = 0.8`. -/
theorem zoom_center_extents (m : Mandelbrot) (x y : ℤ) (r : ℚ) :
    ((zoom m x y r).xmax - (zoom m x y r).xmin = (m.xmax - m.xmin) * r ∧
     (zoom m x y r).ymax - (zoom m x y r).ymin = (m.ymax - m.ymin) * r ∧
     ((zoom m x y r).xmin + (zoom m x y r).xmax) / 2 = physToVirtX m x ∧
     ((zoom m x y r).ymin + (zoom m x y r).ymax) / 2 = physToVirtY m y) ∧
    (m.xmin < m.xmax → 0 < m.width →
      (physToVirtX m x - m.xmin) / (m.xmax - m.xmin) * (m.width : ℚ) = (x : ℚ)) ∧
    (((zoom Mandelbrot.new 400 400 (4 / 5)).xmin
          + (zoom Mandelbrot.new 400 400 (4 / 5)).xmax) / 2
        = (Mandelbrot.new.xmin + Mandelbrot.new.xmax) / 2 ∧
     ((zoom Mandelbrot.new 400 400 (4 / 5)).ymin
          + (zoom Mandelbrot.new 400 400 (4 / 5)).ymax) / 2
        = (Mandelbrot.new.ymin + Mandelbrot.new.ymax) / 2 ∧
     (zoom Mandelbrot.new 400 400 (4 / 5)).xmax
          - (zoom Mandelbrot.new 400 400 (4 / 5)).xmin
        = (4 / 5) * (Mandelbrot.new.xmax - Mandelbrot.new.xmin) ∧
     (zoom Mandelbrot.new 400 400 (4 / 5)).ymax
          - (zoom Mandelbrot.new 400 400 (4 / 5)).ymin
        = (4 / 5) * (Mandelbrot.new.ymax - Mandelbrot.new.ymin)) := by
  refine ⟨⟨?_, ?_, ?_, ?_⟩, ?_, ?_, ?_, ?_, ?_⟩
  · simp only [zoom]
    ring
  · simp only [zoom]
    ring
  · simp only [zoom, physToVirtX]
    ring
  · simp only [zoom, physToVirtY]
    ring
  · intro hx hw
    have hnex : m.xmax - m.xmin ≠ 0 := sub_ne_zero.mpr (ne_of_gt hx)
    have hnw : (m.width : ℚ) ≠ 0 := by
      have : (0 : ℚ) < (m.width : ℚ) := by exact_mod_cast hw
      exact ne_of_gt this
    rw [physToVirtX]
    field_simp
    ring
  · norm_num [zoom, Mandelbrot.new, INIT_VIRTUAL_GRID_XMIN, INIT_VIRTUAL_GRID_XMAX,
      WINDOW_WIDTH]
  · norm_num [zoom, Mandelbrot.new, INIT_VIRTUAL_GRID_YMIN, INIT_VIRTUAL_GRID_YMAX,
      WINDOW_HEIGHT]
  · norm_num [zoom, Mandelbrot.new, INIT_VIRTUAL_GRID_XMIN, INIT_VIRTUAL_GRID_XMAX,
      WINDOW_WIDTH]
  · norm_num [zoom, Mandelbrot.new, INIT_VIRTUAL_GRID_YMIN, INIT_VIRTUAL_GRID_YMAX,
      WINDOW_HEIGHT]

/-- Witness for C5: the inverse-mapping conjunct instantiated on the startup
viewport at pixel 400, with its non-degeneracy hypotheses discharged. -/
theorem zoom_center_extents_witness :
    (physToVirtX Mandelbrot.new 400 - Mandelbrot.new.xmin)
        / (Mandelbrot.new.xmax - Mandelbrot.new.xmin) * (Mandelbrot.new.width : ℚ)
      = ((400 : ℤ) : ℚ) :=
  (zoom_center_extents Mandelbrot.new 400 400 (4 / 5)).2.1
    (by norm_num [Mandelbrot.new, INIT_VIRTUAL_GRID_XMIN, INIT_VIRTUAL_GRID_XMAX])
    (by norm_num [Mandelbrot.new, WINDOW_WIDTH])

/-- Counterexample to C6: `zoom` does not reject degenerate parameters —
calling it with ratio `0` on the startup viewport both mutates the state
(xmin changes from `-2` to `0`) and produces a degenerate viewport
(`xmin = xmax = 0`). -/
theorem zoom_no_validation_cex :
    (zoom Mandelbrot.new 400 400 0).xmin = 0 ∧
    (zoom Mandelbrot.new 400 400 0).xmax = 0 ∧
    Mandelbrot.new.xmin = -2 ∧
    ((zoom Mandelbrot.new 400 400 0 = Mandelbrot.new) = False) := by
  have h1 : (zoom Mandelbrot.new 400 400 0).xmin = 0 := by
    norm_num [zoom, Mandelbrot.new, INIT_VIRTUAL_GRID_XMIN, INIT_VIRTUAL_GRID_XMAX,
      WINDOW_WIDTH]
  have h2 : (zoom Mandelbrot.new 400 400 0).xmax = 0 := by
    norm_num [zoom, Mandelbrot.new, INIT_VIRTUAL_GRID_XMIN, INIT_VIRTUAL_GRID_XMAX,
      WINDOW_WIDTH]
  have h3 : Mandelbrot.new.xmin = -2 := rfl
  refine ⟨h1, h2, h3, eq_false ?_⟩
  intro heq
  have := congrArg Mandelbrot.xmin heq
  rw [h1, h3] at this
  norm_num at this

/-- C6 (amended).  `zoom` performs no validation at all: it unconditionally
overwrites the viewport, and for any ratio `r ≤ 0` applied to a
non-degenerate viewport the resulting state violates the viewport ordering
in both axes (`xmax' ≤ xmin'` and `ymax' ≤ ymin'`), instead of the
parameters being rejected with the state unchanged. -/
theorem zoom_degenerate_result (m : Mandelbrot) (x y : ℤ) (r : ℚ)
    (hx : m.xmin < m.xmax) (hy : m.ymin < m.ymax) (hr : r ≤ 0) :
    (zoom m x y r).xmax ≤ (zoom m x y r).xmin ∧
    (zoom m x y r).ymax ≤ (zoom m x y r).ymin := by
  have hgx : ((m.xmax - m.xmin) / 2) * r ≤ 0 := by nlinarith
  have hgy : ((m.ymax - m.ymin) / 2) * r ≤ 0 := by nlinarith
  constructor
  · simp only [zoom]
    linarith
  · simp only [zoom]
    linarith

/-- Witness for C6 (amended) at ratio `0` on the startup viewport. -/
theorem zoom_degenerate_result_witness :
    (zoom Mandelbrot.new 400 400 0).xmax ≤ (zoom Mandelbrot.new 400 400 0).xmin ∧
    (zoom Mandelbrot.new 400 400 0).ymax ≤ (zoom Mandelbrot.new 400 400 0).ymin :=
  zoom_degenerate_result Mandelbrot.new 400 400 0
    (by norm_num [Mandelbrot.new, INIT_VIRTUAL_GRID_XMIN, INIT_VIRTUAL_GRID_XMAX])
    (by norm_num [Mandelbrot.new, INIT_VIRTUAL_GRID_YMIN, INIT_VIRTUAL_GRID_YMAX])
    (by norm_num)

/-- Counterexample to C7: a single `zoom` call with ratio `0` breaks the
viewport invariant — both new x bounds collapse to the clicked virtual
coordinate `-2`. -/
theorem zoom_invariant_violation_cex :
    (zoom Mandelbrot.new 0 0 0).xmin = -2 ∧
    (zoom Mandelbrot.new 0 0 0).xmax = -2 ∧
    (((zoom Mandelbrot.new 0 0 0).xmin < (zoom Mandelbrot.new 0 0 0).xmax) = False) := by
  have h1 : (zoom Mandelbrot.new 0 0 0).xmin = -2 := by
    norm_num [zoom, Mandelbrot.new, INIT_VIRTUAL_GRID_XMIN, INIT_VIRTUAL_GRID_XMAX,
      WINDOW_WIDTH]
  have h2 : (zoom Mandelbrot.new 0 0 0).xmax = -2 := by
    norm_num [zoom, Mandelbrot.new, INIT_VIRTUAL_GRID_XMIN, INIT_VIRTUAL_GRID_XMAX,
      WINDOW_WIDTH]
  refine ⟨h1, h2, eq_false ?_⟩
  rw [h1, h2]
  norm_num

/-- C7 (amended).  The viewport invariant (`xmin < xmax`, `ymin < ymax`,
`width > 0`, `height > 0`) holds for the startup viewport and is preserved
by `zoom` whenever the ratio is positive (in particular by the program's
only call, ratio `0.8`); `zoom` is the only mutator and never touches the
resolution.  For nonpositive ratios the invariant is not preserved. -/
theorem viewport_invariant_init_preserved :
    viewportInv Mandelbrot.new ∧
    ∀ (m : Mandelbrot) (x y : ℤ) (r : ℚ), viewportInv m → 0 < r →
      viewportInv (zoom m x y r) := by
  constructor
  · refine ⟨?_, ?_, ?_, ?_⟩
    · norm_num [Mandelbrot.new, INIT_VIRTUAL_GRID_XMIN, INIT_VIRTUAL_GRID_XMAX]
    · norm_num [Mandelbrot.new, INIT_VIRTUAL_GRID_YMIN, INIT_VIRTUAL_GRID_YMAX]
    · norm_num [Mandelbrot.new, WINDOW_WIDTH]
    · norm_num [Mandelbrot.new, WINDOW_HEIGHT]
  · intro m x y r hm hr
    obtain ⟨h1, h2, h3, h4⟩ := hm
    have hgx : 0 < ((m.xmax - m.xmin) / 2) * r := by
      apply mul_pos _ hr
      linarith
    have hgy : 0 < ((m.ymax - m.ymin) / 2) * r := by
      apply mul_pos _ hr
      linarith
    refine ⟨?_, ?_, h3, h4⟩
    · simp only [zoom]
      linarith
    · simp only [zoom]
      linarith

/-- Witness for C7 (amended): the zoom performed by the program's click
handler (ratio `0.8`) preserves the invariant from the startup viewport. -/
theorem viewport_invariant_init_preserved_witness :
    viewportInv (zoom Mandelbrot.new 100 200 (4 / 5)) :=
  viewport_invariant_init_preserved.2 Mandelbrot.new 100 200 (4 / 5)
    viewport_invariant_init_preserved.1 (by norm_num)

/-- C9.  `zoom` only writes the four bounds; the `width` and `height`
fields of the viewport are returned unchanged. -/
theorem zoom_preserves_width_height (m : Mandelbrot) (x y : ℤ) (r : ℚ) :
    (zoom m x y r).width = m.width ∧ (zoom m x y r).height = m.height :=
  ⟨rfl, rfl⟩

/-- One completion event of the fan-out/fan-in: when the worker for slice `i`
finishes, its result (a pure function of its exclusively-owned slice) is
recorded under its slice index.  This models that thread scheduling can only
permute completion order, never the association of results to handles. -/
def schedStep (slices : List (List VirtualPoint))
    (tbl : Nat → Option (List VirtualPoint)) (i : Nat) :
    Nat → Option (List VirtualPoint) :=
  fun j => if j = i then some (calc_mandelbrot_worker (slices.getD i [])) else tbl j

/-- The completion table after the workers finish in the order given by
`order` (an arbitrary interleaving chosen by the scheduler). -/
def schedExec (slices : List (List VirtualPoint)) (order : List Nat) :
    Nat → Option (List VirtualPoint) :=
  order.foldl (schedStep slices) (fun _ => none)

/-- The join loop of `draw_mandelbrot_run` (source lines 118-121): handles
are joined in spawn order (slice index order), reading each worker's
recorded result, regardless of the completion order. -/
def schedJoin (slices : List (List VirtualPoint)) (order : List Nat) :
    List VirtualPoint :=
  ((List.range slices.length).map (fun i => (schedExec slices order i).getD [])).flatten

/-- A full render pass in which the ten workers complete in the scheduler-
chosen order `order`, followed by the physical transform. -/
def draw_mandelbrot_sched (m : Mandelbrot) (order : List Nat) : List PhysicalPoint :=
  (schedJoin (runSlices (draw_mandelbrot_init m)) order).map (toPhysical m)

/-- After any completion order containing `i`, the table holds worker `i`'s
result at `i`. -/
lemma schedExec_lookup (slices : List (List VirtualPoint)) :
    ∀ (order : List Nat) (tbl : Nat → Option (List VirtualPoint)) (i : Nat),
      order.foldl (schedStep slices) tbl i
        = if i ∈ order then some (calc_mandelbrot_worker (slices.getD i [])) else tbl i := by
  intro order
  induction order with
  | nil => intro tbl i; simp
  | cons a rest ih =>
    intro tbl i
    rw [List.foldl_cons, ih]
    by_cases hmem : i ∈ rest
    · simp [hmem]
    · by_cases hia : i = a
      · subst hia
        simp [hmem, schedStep]
      · simp [hmem, hia, schedStep]

/-- Reading a list through `getD` along its index range is the list itself. -/
lemma range_map_getD {α β : Type} (d : α) (f : α → β) :
    ∀ (l : List α), (List.range l.length).map (fun i => f (l.getD i d)) = l.map f := by
  intro l
  induction l with
  | nil => simp
  | cons a t ih =>
    rw [List.length_cons, List.range_succ_eq_map, List.map_cons, List.map_map]
    have hcomp : ((fun i => f ((a :: t).getD i d)) ∘ Nat.succ)
        = (fun i => f (t.getD i d)) := rfl
    rw [hcomp, ih]
    rfl

/-- If every slice index appears in the completion order, the join in spawn
order returns exactly the per-slice worker results in slice order. -/
lemma schedJoin_eq (slices : List (List VirtualPoint)) (order : List Nat)
    (hall : ∀ i, i < slices.length → i ∈ order) :
    schedJoin slices order = (slices.map calc_mandelbrot_worker).flatten := by
  rw [schedJoin]
  congr 1
  have hpt : ∀ i ∈ List.range slices.length,
      (schedExec slices order i).getD []
        = calc_mandelbrot_worker (slices.getD i []) := by
    intro i hi
    rw [List.mem_range] at hi
    rw [schedExec, schedExec_lookup slices order _ i, if_pos (hall i hi)]
    rfl
  rw [List.map_congr_left hpt]
  exact range_map_getD [] calc_mandelbrot_worker slices

/-- C10.  For any fixed viewport, a full render pass returns the same
sequence of physical points under every thread schedule: any two completion
orders of the ten workers yield identical output, equal to the sequential
render, because results are joined and concatenated in fixed slice-index
order. -/
theorem render_schedule_deterministic (m : Mandelbrot) (o1 o2 : List Nat)
    (h1 : o1.Perm (List.range 10)) (h2 : o2.Perm (List.range 10)) :
    draw_mandelbrot_sched m o1 = draw_mandelbrot m ∧
    draw_mandelbrot_sched m o1 = draw_mandelbrot_sched m o2 := by
  have hlen : ∀ points : List VirtualPoint, (runSlices points).length = 10 := by
    intro points
    rw [runSlices, List.length_map, List.length_range, WORKER_THREADS]
  have hall : ∀ (o : List Nat), o.Perm (List.range 10) →
      ∀ i, i < (runSlices (draw_mandelbrot_init m)).length → i ∈ o := by
    intro o ho i hi
    rw [hlen] at hi
    rw [ho.mem_iff, List.mem_range]
    exact hi
  have hrun : ∀ (o : List Nat), o.Perm (List.range 10) →
      draw_mandelbrot_sched m o = draw_mandelbrot m := by
    intro o ho
    rw [draw_mandelbrot_sched, schedJoin_eq _ o (hall o ho), draw_mandelbrot,
      draw_mandelbrot_run]
  exact ⟨hrun o1 h1, (hrun o1 h1).trans (hrun o2 h2).symm⟩

/-- Witness for C10: the reversed completion order (workers finishing last
spawned first) produces the same render of the startup viewport as the
identity order. -/
theorem render_schedule_deterministic_witness :
    draw_mandelbrot_sched Mandelbrot.new ((List.range 10).reverse)
      = draw_mandelbrot Mandelbrot.new :=
  (render_schedule_deterministic Mandelbrot.new ((List.range 10).reverse)
    (List.range 10) (List.reverse_perm (List.range 10)) (List.Perm.refl _)).1
